import Mathlib

/-!
Verification development for `ert-format-helper.py`.

The program transforms a list of "event" lines (strings).  We embed strings
as `List Char` and translate each Python function into a Lean function with
the same name (camel-cased).  The two regular expressions of the source,

  HEADER_REGEX  = `.*-.*?-\s`            (used with `re.match`, anchored)
  RAID_CD_REGEX = `\|c[0-9abcdefABCDEF]{6,8}([\s\w]*)\|r(\s*{spell:[0-9]*}\s\s)`
                                          (used with `finditer`)

are embedded as executable matchers.  Both patterns are backtracking-free in
the following sense, which the embedding exploits:

* In RAID_CD_REGEX every greedy sub-expression is followed by a delimiter
  character excluded from its character class (`[\s\w]*` is followed by `|`,
  `\s*` by `{`, `[0-9]*` by `}`), so each greedy run is simply the maximal
  run.  The `{6,8}` quantifier on the hex class interacts with the following
  `[\s\w]*` (hex digits are also word characters), but the end position of
  the combined run is independent of how many hex digits are kept, so the
  greedy choice is `min 8 (length of the maximal hex run)`, failing when the
  run is shorter than 6.

* In HEADER_REGEX, a match with first-star end `i` and lazy-star end `j`
  exists iff `s[i] = '-'`, `s[j] = '-'`, `s[j+1]` is whitespace, `i < j`,
  and `s[0..j)` is newline-free (`.` does not match `\n`; the final `\s`
  may).  Greedy `.*` maximises `i`, then the lazy part minimises `j`.  The
  result is equivalent to: the match ends at `jmax + 2` where `jmax` is the
  LAST position `j` in the newline-free prefix with `s[j] = '-'`,
  `s[j+1]` whitespace, and some `'-'` strictly before `j`.  (Taking the
  largest such `j`, the greedy `i` is the last dash before `jmax`, and no
  closing dash lies strictly between them, so the minimal lazy `j` for that
  `i` is `jmax` itself.)

Python's `\s` is modelled by its ASCII part (space, \t, \n, \v, \f, \r) and
`\w` by ASCII alphanumerics, underscore, and all characters above U+007F
(an over-approximation of Unicode word characters that agrees with Python
on every character appearing in the repository's data: letters, accented
letters, digits, underscore, and the ASCII punctuation/markup characters).
-/

/-- Python `\s`, ASCII part. -/
def isPySpace (c : Char) : Bool :=
  c = ' ' || c = '\t' || c = '\n' || c = '\x0b' || c = '\x0c' || c = '\r'

/-- Python `\w` (see header comment for the approximation used). -/
def isPyWord (c : Char) : Bool :=
  c.isAlphanum || c = '_' || decide (128 ≤ c.toNat)

/-- The class `[0-9abcdefABCDEF]` of RAID_CD_REGEX. -/
def isHexCh (c : Char) : Bool :=
  c.isDigit || c = 'a' || c = 'b' || c = 'c' || c = 'd' || c = 'e' || c = 'f'
    || c = 'A' || c = 'B' || c = 'C' || c = 'D' || c = 'E' || c = 'F'

/-- The class `[\s\w]` (group 1 of RAID_CD_REGEX). -/
def isWordSpaceCh (c : Char) : Bool :=
  isPySpace c || isPyWord c

/-- A match of RAID_CD_REGEX: `full` is the whole matched text (`match[0]`),
`name` is capture group 1 (the assignee), `spell` is capture group 2
(the spell-reference block including its surrounding padding). -/
structure CdMatch where
  full : List Char
  name : List Char
  spell : List Char
deriving DecidableEq, Repr

/-- The literal `{spell:` of RAID_CD_REGEX. -/
def spellOpen : List Char := ['\x7b', 's', 'p', 'e', 'l', 'l', ':']

/-- The tail of RAID_CD_REGEX after `\|r`: `(\s*{spell:[0-9]*}\s\s)`.
Returns capture group 2 (padding included).  The greedy `\s*` is the
maximal whitespace run (delimited by the following `{`); the greedy
`[0-9]*` is the maximal digit run (delimited by the following `}`). -/
def matchSpellGroup (afterR : List Char) : Option (List Char) :=
  match afterR.dropWhile isPySpace with
  | '\x7b' :: 's' :: 'p' :: 'e' :: 'l' :: 'l' :: ':' :: afterSpell =>
    match afterSpell.dropWhile Char.isDigit with
    | '\x7d' :: s1 :: s2 :: _ =>
      if isPySpace s1 && isPySpace s2 then
        some (afterR.takeWhile isPySpace ++ spellOpen
          ++ afterSpell.takeWhile Char.isDigit ++ ['\x7d', s1, s2])
      else none
    | _ => none
  | _ => none

/-- The middle of RAID_CD_REGEX after `\|c` and the hex part:
`([\s\w]*)\|r(\s*{spell:[0-9]*}\s\s)`.  Returns (group 1, group 2).
The greedy `([\s\w]*)` is the maximal word-or-space run (delimited by the
following `|`). -/
def matchNameAndSpell (afterHex : List Char) : Option (List Char × List Char) :=
  match afterHex.dropWhile isWordSpaceCh with
  | '|' :: 'r' :: afterR =>
    match matchSpellGroup afterR with
    | some spellGroup => some (afterHex.takeWhile isWordSpaceCh, spellGroup)
    | none => none
  | _ => none

/-- Attempt to match RAID_CD_REGEX at the start of `s`
(`\|c[0-9abcdefABCDEF]{6,8}([\s\w]*)\|r(\s*{spell:[0-9]*}\s\s)`).
Returns the match whose `full` text is exactly the consumed prefix of `s`.
The greedy `{6,8}` keeps `min 8 (maximal hex run)` characters and needs at
least 6; backtracking is eliminated as justified in the header comment. -/
def matchCdAt : List Char → Option CdMatch
  | '|' :: 'c' :: afterC =>
    if ((afterC.takeWhile isHexCh).take 8).length < 6 then none
    else
      match matchNameAndSpell (afterC.drop ((afterC.takeWhile isHexCh).take 8).length) with
      | some (namePart, spellGroup) =>
        some { full := '|' :: 'c' :: ((afterC.takeWhile isHexCh).take 8
                 ++ namePart ++ '|' :: 'r' :: spellGroup)
               name := namePart
               spell := spellGroup }
      | none => none
  | _ => none

/-- `finditer` scan: leftmost non-overlapping matches, resuming after each
match's end.  Fuelled for structural recursion; `fuel = s.length` suffices
since every step consumes at least one character. -/
def findCdsAux : Nat → List Char → List CdMatch
  | 0, _ => []
  | _ + 1, [] => []
  | fuel + 1, c :: rest =>
    match matchCdAt (c :: rest) with
    | some m => m :: findCdsAux fuel ((c :: rest).drop m.full.length)
    | none => findCdsAux fuel rest

/-- All RAID_CD_REGEX matches of `s`, in left-to-right order
(`RAID_CD_REGEX.finditer(event)`). -/
def findCds (s : List Char) : List CdMatch := findCdsAux s.length s

/-- `find_cds_for_healer`: the matches whose captured assignee is `healer`. -/
def findCdsForHealer (event healer : List Char) : List CdMatch :=
  (findCds event).filter (fun m => m.name = healer)

/-- `get_healer_cd_text_from_matches`: concatenation of `match[0]` texts. -/
def getHealerCdTextFromMatches (healerCdMatches : List CdMatch) : List Char :=
  healerCdMatches.foldl (fun cdText m => cdText ++ m.full) []

/-- Scan for HEADER_REGEX (`.*-.*?-\s`, anchored): returns the end position
of the match, per the equivalence in the header comment.  `seen` records
whether a `'-'` occurs strictly before the current position, `pos` is the
current position, `best` the latest match end found so far.  The scan stops
at a newline (the stars cannot cross it; the final `\s` may be a newline,
which is handled by the one-character lookahead). -/
def headerScanAux : List Char → Bool → Nat → Option Nat → Option Nat
  | '\n' :: _, _, _, best => best
  | '-' :: c2 :: rest, seen, pos, best =>
    headerScanAux (c2 :: rest) true (pos + 1)
      (if seen && isPySpace c2 then some (pos + 2) else best)
  | ['-'], _, _, best => best
  | _ :: rest, seen, pos, best => headerScanAux rest seen (pos + 1) best
  | [], _, _, best => best

/-- `HEADER_REGEX.match(event)`: the matched header substring, if any. -/
def findHeaderOpt (s : List Char) : Option (List Char) :=
  (headerScanAux s false 0 none).map (fun e => s.take e)

/-- `find_header`: the header, or the single-space placeholder after a
logged (non-fatal) error when the line does not match HEADER_REGEX. -/
def findHeader (event : List Char) : List Char :=
  match findHeaderOpt event with
  | none => [' ']
  | some h => h

/-- One line of `handle_data_format_bug_1`: `re.sub('[|]r{', '|r {', event)`.
Non-overlapping left-to-right replacement; the scan resumes after the
replaced text. -/
def subBug1Line : List Char → List Char
  | '|' :: 'r' :: '\x7b' :: rest => '|' :: 'r' :: ' ' :: '\x7b' :: subBug1Line rest
  | c :: rest => c :: subBug1Line rest
  | [] => []

/-- `handle_data_format_bug_1`: fixes the export defect on every line. -/
def handleDataFormatBug1 (eventList : List (List Char)) : List (List Char) :=
  eventList.map subBug1Line

/-- The body of the `do_split_healer_events` loop for one event: the lines
appended to the healer's file for this event (one line, or nothing when the
healer has no cds in the event). -/
def splitContribution (event healer : List Char) : List (List Char) :=
  let healerCdText := getHealerCdTextFromMatches (findCdsForHealer event healer)
  if healerCdText = [] then [] else [findHeader event ++ healerCdText]

/-- `do_split_healer_events`: the lines appended to `healer`'s file, over
the whole (bug-1-normalized) event list. -/
def doSplitHealerEvents (eventList : List (List Char)) (healer : List Char) :
    List (List Char) :=
  (handleDataFormatBug1 eventList).flatMap (fun event => splitContribution event healer)

/-- Python `s.replace(pat, "")`, fuelled: removes the non-overlapping
left-to-right occurrences of `pat`.  `fuel = s.length` suffices since every
step consumes at least one character (for nonempty `pat`; for `pat = []`
the scan copies `s`, as Python's `replace` with an empty pattern and empty
replacement leaves the string unchanged). -/
def removeAllF : Nat → List Char → List Char → List Char
  | 0, _, s => s
  | _ + 1, _, [] => []
  | fuel + 1, pat, c :: rest =>
    if pat ≠ [] ∧ pat.isPrefixOf (c :: rest) then
      removeAllF fuel pat ((c :: rest).drop pat.length)
    else c :: removeAllF fuel pat rest

/-- `s.replace(pat, "")`. -/
def removeAll (pat s : List Char) : List Char := removeAllF s.length pat s

/-- `remove_cds_from_event`: the matches for `healer` are computed once on
the incoming string, then each match's full text is removed (Python
`str.replace` removes every occurrence).  The redundant re-check of the
captured group mirrors the source's inner `if`. -/
def removeCdsFromEvent (event healer : List Char) : List Char :=
  (findCdsForHealer event healer).foldl
    (fun processedEvent m =>
      if m.name = healer then removeAll m.full processedEvent else processedEvent)
    event

/-- The healer roster (`HEALER_ROSTER`), in its fixed source order. -/
def HEALER_ROSTER : List (List Char) :=
  ["Hôsteric".toList, "Delvur".toList, "Yashar".toList, "Pv".toList,
   "Runnz".toList, "Lífeforce".toList, "Seiton".toList]

/-- `RAID_LEAD`. -/
def RAID_LEAD : List Char := "Slickduck".toList

/-- The body of the `do_strip_healer_cds` loop for one event: remove the
header text, every newline, then every roster healer's matched cd texts in
roster order; emit `header ++ residue` when the residue is nonempty. -/
def stripContribution (event : List Char) : List (List Char) :=
  let header := findHeader event
  let p1 := removeAll header event
  let p2 := removeAll ['\n'] p1
  let p3 := HEALER_ROSTER.foldl removeCdsFromEvent p2
  if p3 = [] then [] else [header ++ p3]

/-- `do_strip_healer_cds`: the lines appended to the non-healer file, over
the whole (bug-1-normalized) event list. -/
def doStripHealerCds (eventList : List (List Char)) : List (List Char) :=
  (handleDataFormatBug1 eventList).flatMap stripContribution

/-- `RaidLeadVisibility`. -/
inductive RaidLeadVisibility where
  | ALL
  | HEALER_CDS
  | NON_HEALER_CDS
deriving DecidableEq, Repr

/-- `should_be_visible_to_raid_leader`, mirroring the if/elif chain. -/
def shouldBeVisibleToRaidLeader (raider : List Char)
    (raidLeadVisibility : RaidLeadVisibility) : Bool :=
  if raidLeadVisibility = .ALL then true
  else if raidLeadVisibility = .HEALER_CDS ∧ raider ∈ HEALER_ROSTER then true
  else if raidLeadVisibility = .NON_HEALER_CDS ∧ raider ∉ HEALER_ROSTER then true
  else false

/-- The `visibility_list` built by `get_encapsulated_cd_from_match`:
the raid lead (when visible) followed by the raider's name. -/
def tokenVisibilityList (cdMatch : CdMatch)
    (raidLeadVisibility : RaidLeadVisibility) : List (List Char) :=
  (if shouldBeVisibleToRaidLeader cdMatch.name raidLeadVisibility
   then [RAID_LEAD] else []) ++ [cdMatch.name]

/-- `','.join(names)`. -/
def joinComma (names : List (List Char)) : List Char :=
  List.intercalate [','] names

/-- `get_encapsulated_cd_from_match`: `{p:<names>}<cd>{/p}`. -/
def getEncapsulatedCdFromMatch (cdMatch : CdMatch)
    (raidLeadVisibility : RaidLeadVisibility) : List Char :=
  '\x7b' :: 'p' :: ':' :: joinComma (tokenVisibilityList cdMatch raidLeadVisibility)
    ++ '\x7d' :: cdMatch.full ++ ['\x7b', '/', 'p', '\x7d']

/-- The `header_visibility_list` accumulated by the `encapsulate_cds` loop:
every matched assignee in match order, then the raid lead when at least one
match is visible to them. -/
def headerVisibilityList (event : List Char)
    (raidLeadVisibility : RaidLeadVisibility) : List (List Char) :=
  let ms := findCds event
  let base := ms.map (·.name)
  if ms.any (fun m => shouldBeVisibleToRaidLeader m.name raidLeadVisibility)
  then base ++ [RAID_LEAD] else base

/-- `list(set(...))` in `encapsulate_cds` deduplicates the header
visibility list but iterates a Python `set`, whose order is determined by
string hashes (randomized per process).  The embedding is therefore
parameterized by the deduplication order `d`; `ValidDedup` states exactly
what Python guarantees: the result is duplicate-free with the same
members. -/
def ValidDedup (d : List (List Char) → List (List Char)) : Prop :=
  ∀ l, (d l).Nodup ∧ ∀ x, x ∈ d l ↔ x ∈ l

/-- One event's contribution to the encapsulated output text
(`encapsulate_cds` loop body), for deduplication order `d`: empty when no
cds matched, else the tagged header followed by the tagged cds and a line
break. -/
def encapsulateEventD (d : List (List Char) → List (List Char))
    (event : List Char) (raidLeadVisibility : RaidLeadVisibility) : List Char :=
  let header := findHeader event
  let cds := ((findCds event).map
    (fun m => getEncapsulatedCdFromMatch m raidLeadVisibility)).flatten
  let visibilityStr := joinComma (d (headerVisibilityList event raidLeadVisibility))
  if cds = [] then []
  else '\x7b' :: 'p' :: ':' :: visibilityStr ++ '\x7d' :: header
    ++ ['\x7b', '/', 'p', '\x7d'] ++ cds ++ ['\n']

/-- `encapsulate_cds`: the accumulated encapsulated text over all events
(the source does not normalize with bug-1 on this path). -/
def encapsulateCdsD (d : List (List Char) → List (List Char))
    (eventList : List (List Char)) (raidLeadVisibility : RaidLeadVisibility) :
    List Char :=
  (eventList.map (fun event => encapsulateEventD d event raidLeadVisibility)).flatten

/-- The canonical deduplication order used to make `main` executable:
first-seen order.  (Any `ValidDedup` order models the Python set.) -/
def dedupFirst (l : List (List Char)) : List (List Char) := l.dedup

/-- Another admissible model of Python set order: first-seen, reversed. -/
def dedupRev (l : List (List Char)) : List (List Char) := l.dedup.reverse

/-- The file-system state touched by `main`.  `none` models a file or
resource that does not exist.  `healerFiles` is aligned positionally with
`HEALER_ROSTER`; the embedding assumes the working directory is the script
directory, so that `clear_file(healer + '-cds.txt')` and the splitter's
`open(os.path.join(PATH, healer + '-cds.txt'))` denote the same file. -/
structure FS where
  source : Option (List (List Char))
  healerFiles : List (Option (List Char))
  nonHealer : Option (List Char)
  encapsulated : Option (List Char)
deriving DecidableEq, Repr

/-- `clear_file`: truncates the file when it exists, otherwise does
nothing (the `os.path.isfile` guard). -/
def clearFile : Option (List Char) → Option (List Char)
  | some _ => some []
  | none => none

/-- Writing `lines` through `append_event_to_file` to a file opened with
mode `a+` (created when missing, appended at the end): each line is
followed by a newline. -/
def appendLines (content : Option (List Char)) (lines : List (List Char)) :
    Option (List Char) :=
  some (content.getD [] ++ (lines.map (fun l => l ++ ['\n'])).flatten)

/-- The outcome of a run of `main`: the final file-system state, and
whether the run completed (`ok = false` models the uncaught
`FileNotFoundError` raised by `open(SOURCE)` when the source is missing). -/
structure RunResult where
  fs : FS
  ok : Bool
deriving DecidableEq, Repr

/-- `main`, step for step: clear the per-healer files, clear the non-healer
file, open the source (abort here when missing), run the splitter and the
stripper, clear the encapsulated file, re-open the source and run the
encapsulator with `RaidLeadVisibility.NON_HEALER_CDS`. -/
def mainRun (fs0 : FS) : RunResult :=
  let fs1 := { fs0 with
    healerFiles := HEALER_ROSTER.zipWith (fun _ c => clearFile c) fs0.healerFiles }
  let fs2 := { fs1 with nonHealer := clearFile fs1.nonHealer }
  match fs2.source with
  | none => { fs := fs2, ok := false }
  | some eventList =>
    let fs3 := { fs2 with
      healerFiles := HEALER_ROSTER.zipWith
        (fun healer c => appendLines c (doSplitHealerEvents eventList healer))
        fs2.healerFiles }
    let fs4 := { fs3 with
      nonHealer := appendLines fs3.nonHealer (doStripHealerCds eventList) }
    let fs5 := { fs4 with encapsulated := clearFile fs4.encapsulated }
    match fs5.source with
    | none => { fs := fs5, ok := false }
    | some eventList2 =>
      { fs := { fs5 with
          encapsulated := appendLines fs5.encapsulated
            [encapsulateCdsD dedupFirst eventList2 .NON_HEALER_CDS] }
        ok := true }

/-- A structured description of one assignment token, used to state
theorems about lines built from tokens (`|c<hex><name>|r<ws>{spell:<digits>}<s1><s2>`). -/
structure TokSpec where
  hex : List Char
  name : List Char
  ws : List Char
  digits : List Char
  s1 : Char
  s2 : Char
deriving DecidableEq, Repr

/-- Capture group 2 of the token described by `t`. -/
def tokSpellGroup (t : TokSpec) : List Char :=
  t.ws ++ spellOpen ++ t.digits ++ ['\x7d', t.s1, t.s2]

/-- The text of the token described by `t`. -/
def mkTok (t : TokSpec) : List Char :=
  '|' :: 'c' :: (t.hex ++ t.name ++ '|' :: 'r' :: tokSpellGroup t)

/-- The `CdMatch` produced by matching `mkTok t`. -/
def toCdMatch (t : TokSpec) : CdMatch :=
  { full := mkTok t, name := t.name, spell := tokSpellGroup t }

/-- `true` when the list is empty or starts with a non-hex character. -/
def headNotHex : List Char → Bool
  | [] => true
  | c :: _ => !isHexCh c

/-- Well-formedness of a token description: the pieces lie in the regex's
character classes, the hex part has the length the greedy `{6,8}` would
keep, and (when it keeps fewer than 8) the name does not start with
another hex character. -/
def WfTok (t : TokSpec) : Prop :=
  (∀ c ∈ t.hex, isHexCh c) ∧ 6 ≤ t.hex.length ∧ t.hex.length ≤ 8 ∧
    (t.hex.length < 8 → headNotHex t.name) ∧
    (∀ c ∈ t.name, isWordSpaceCh c) ∧ (∀ c ∈ t.ws, isPySpace c) ∧
    (∀ c ∈ t.digits, c.isDigit) ∧ isPySpace t.s1 ∧ isPySpace t.s2

instance (t : TokSpec) : Decidable (WfTok t) := by
  unfold WfTok; infer_instance

/-- The concatenation of the tokens described by `ts`. -/
def tokConcat (ts : List TokSpec) : List Char :=
  (ts.map mkTok).flatten

/-! ### Basic facts about the matchers -/

theorem matchCdAt_full_shape {s : List Char} {m : CdMatch}
    (h : matchCdAt s = some m) :
    ∃ t, m.full = '|' :: 'c' :: t := by
  unfold matchCdAt at h
  repeat' first
    | exact Option.noConfusion h
    | split at h
  rw [Option.some_inj] at h
  subst h
  exact ⟨_, rfl⟩

theorem matchCdAt_full_pos {s : List Char} {m : CdMatch}
    (h : matchCdAt s = some m) : 0 < m.full.length := by
  obtain ⟨t, ht⟩ := matchCdAt_full_shape h
  simp [ht]

theorem findCdsAux_fuel_eq : ∀ (n f : Nat) (s : List Char),
    s.length ≤ n → s.length ≤ f → findCdsAux f s = findCdsAux s.length s := by
  intro n
  induction n with
  | zero =>
    intro f s hn _
    have hs : s = [] := by
      cases s with
      | nil => rfl
      | cons c r => simp at hn
    subst hs
    cases f <;> rfl
  | succ n ih =>
    intro f s hn hf
    cases s with
    | nil => cases f <;> rfl
    | cons c rest =>
      cases f with
      | zero => simp at hf
      | succ f =>
        simp only [findCdsAux]
        cases hm : matchCdAt (c :: rest) with
        | none =>
          simp only [hm]
          have h1 : rest.length ≤ n := by simp at hn; omega
          have h2 : rest.length ≤ f := by simp at hf; omega
          rw [ih f rest h1 h2, ih rest.length rest h1 (le_refl _)]
        | some m =>
          simp only [hm]
          have hpos := matchCdAt_full_pos hm
          have hlen : ((c :: rest).drop m.full.length).length ≤ rest.length := by
            simp only [List.length_drop, List.length_cons]
            omega
          have h1 : ((c :: rest).drop m.full.length).length ≤ n := by
            simp only [List.length_drop, List.length_cons]
            simp at hn; omega
          have h2 : ((c :: rest).drop m.full.length).length ≤ f := by
            simp only [List.length_drop, List.length_cons]
            simp at hf; omega
          rw [ih f _ h1 h2, ih rest.length _ h1 hlen]

theorem findCds_cons (c : Char) (rest : List Char) :
    findCds (c :: rest) =
      match matchCdAt (c :: rest) with
      | some m => m :: findCds ((c :: rest).drop m.full.length)
      | none => findCds rest := by
  show findCdsAux (rest.length + 1) (c :: rest) = _
  simp only [findCdsAux]
  cases hm : matchCdAt (c :: rest) with
  | none => simp only [hm]; rfl
  | some m =>
    simp only [hm]
    have hpos := matchCdAt_full_pos hm
    have h1 : ((c :: rest).drop m.full.length).length ≤ rest.length := by
      simp only [List.length_drop, List.length_cons]; omega
    rw [findCdsAux_fuel_eq rest.length rest.length _ h1 h1]
    rfl

theorem findCds_nil : findCds [] = [] := rfl

theorem mem_findCdsAux_full_pos : ∀ (f : Nat) (s : List Char) (m : CdMatch),
    m ∈ findCdsAux f s → 0 < m.full.length := by
  intro f
  induction f with
  | zero => intro s m h; simp [findCdsAux] at h
  | succ f ih =>
    intro s m h
    cases s with
    | nil => simp [findCdsAux] at h
    | cons c rest =>
      simp only [findCdsAux] at h
      cases hm : matchCdAt (c :: rest) with
      | none => simp only [hm] at h; exact ih rest m h
      | some m' =>
        simp only [hm] at h
        rcases List.mem_cons.mp h with h | h
        · subst h; exact matchCdAt_full_pos hm
        · exact ih _ m h

theorem mem_findCds_full_pos {s : List Char} {m : CdMatch}
    (h : m ∈ findCds s) : 0 < m.full.length :=
  mem_findCdsAux_full_pos s.length s m h

theorem removeAllF_fuel_eq : ∀ (n f : Nat) (pat s : List Char),
    s.length ≤ n → s.length ≤ f → removeAllF f pat s = removeAllF s.length pat s := by
  intro n
  induction n with
  | zero =>
    intro f pat s hn _
    have hs : s = [] := by
      cases s with
      | nil => rfl
      | cons c r => simp at hn
    subst hs
    cases f <;> rfl
  | succ n ih =>
    intro f pat s hn hf
    cases s with
    | nil => cases f <;> rfl
    | cons c rest =>
      cases f with
      | zero => simp at hf
      | succ f =>
        simp only [removeAllF]
        by_cases hp : pat ≠ [] ∧ pat.isPrefixOf (c :: rest)
        · simp only [if_pos hp]
          have hpat : 0 < pat.length := by
            cases pat with
            | nil => exact absurd rfl hp.1
            | cons a b => simp
          have h1 : ((c :: rest).drop pat.length).length ≤ n := by
            simp only [List.length_drop, List.length_cons]
            simp at hn; omega
          have h2 : ((c :: rest).drop pat.length).length ≤ f := by
            simp only [List.length_drop, List.length_cons]
            simp at hf; omega
          have h3 : ((c :: rest).drop pat.length).length ≤ rest.length := by
            simp only [List.length_drop, List.length_cons]; omega
          rw [ih f pat _ h1 h2, ih rest.length pat _ h1 h3]
        · simp only [if_neg hp]
          have h1 : rest.length ≤ n := by simp at hn; omega
          have h2 : rest.length ≤ f := by simp at hf; omega
          rw [ih f pat rest h1 h2, ih rest.length pat rest h1 (le_refl _)]

theorem removeAll_nil (pat : List Char) : removeAll pat [] = [] := rfl

theorem removeAll_cons (pat : List Char) (c : Char) (rest : List Char) :
    removeAll pat (c :: rest) =
      if pat ≠ [] ∧ pat.isPrefixOf (c :: rest) then
        removeAll pat ((c :: rest).drop pat.length)
      else c :: removeAll pat rest := by
  show removeAllF (rest.length + 1) pat (c :: rest) = _
  simp only [removeAllF]
  by_cases hp : pat ≠ [] ∧ pat.isPrefixOf (c :: rest)
  · simp only [if_pos hp]
    have hpat : 0 < pat.length := by
      cases pat with
      | nil => exact absurd rfl hp.1
      | cons a b => simp
    have h1 : ((c :: rest).drop pat.length).length ≤ rest.length := by
      simp only [List.length_drop, List.length_cons]; omega
    rw [removeAllF_fuel_eq rest.length rest.length pat _ h1 h1]
    rfl
  · simp only [if_neg hp]
    rw [removeAllF_fuel_eq rest.length rest.length pat rest (le_refl _) (le_refl _)]
    rfl

/-! ### Matching well-formed tokens -/

theorem matchSpellGroup_tok (t : TokSpec) (r : List Char)
    (hws : ∀ c ∈ t.ws, isPySpace c) (h1 : isPySpace t.s1) (h2 : isPySpace t.s2)
    (hd : ∀ c ∈ t.digits, c.isDigit) :
    matchSpellGroup (tokSpellGroup t ++ r) = some (tokSpellGroup t) := by
  have e1 : tokSpellGroup t ++ r
      = t.ws ++ ('\x7b' :: 's' :: 'p' :: 'e' :: 'l' :: 'l' :: ':'
          :: (t.digits ++ ('\x7d' :: t.s1 :: t.s2 :: r))) := by
    simp [tokSpellGroup, spellOpen]
  rw [e1]
  unfold matchSpellGroup
  simp only [List.dropWhile_append_of_pos hws,
    List.dropWhile_cons_of_neg (show ¬ isPySpace '\x7b' = true by decide),
    List.dropWhile_append_of_pos hd,
    List.dropWhile_cons_of_neg (show ¬ Char.isDigit '\x7d' = true by decide),
    List.takeWhile_append_of_pos hws,
    List.takeWhile_cons_of_neg (show ¬ isPySpace '\x7b' = true by decide),
    List.takeWhile_append_of_pos hd,
    List.takeWhile_cons_of_neg (show ¬ Char.isDigit '\x7d' = true by decide),
    h1, h2, Bool.and_self, if_true]
  simp [tokSpellGroup, spellOpen]

theorem matchNameAndSpell_tok (t : TokSpec) (r : List Char)
    (hname : ∀ c ∈ t.name, isWordSpaceCh c)
    (hws : ∀ c ∈ t.ws, isPySpace c) (h1 : isPySpace t.s1) (h2 : isPySpace t.s2)
    (hd : ∀ c ∈ t.digits, c.isDigit) :
    matchNameAndSpell (t.name ++ ('|' :: 'r' :: (tokSpellGroup t ++ r)))
      = some (t.name, tokSpellGroup t) := by
  unfold matchNameAndSpell
  simp only [List.dropWhile_append_of_pos hname,
    List.dropWhile_cons_of_neg (show ¬ isWordSpaceCh '|' = true by decide),
    matchSpellGroup_tok t r hws h1 h2 hd,
    List.takeWhile_append_of_pos hname,
    List.takeWhile_cons_of_neg (show ¬ isWordSpaceCh '|' = true by decide)]
  simp

theorem matchCdAt_mkTok (t : TokSpec) (h : WfTok t) (r : List Char) :
    matchCdAt (mkTok t ++ r) = some (toCdMatch t) := by
  obtain ⟨hhex, h6, h8, hnh, hname, hws, hd, h1, h2⟩ := h
  have e1 : mkTok t ++ r
      = '|' :: 'c' :: (t.hex ++ (t.name ++ ('|' :: 'r' :: (tokSpellGroup t ++ r)))) := by
    simp [mkTok]
  rw [e1]
  have etw : ((t.hex ++ (t.name ++ ('|' :: 'r' :: (tokSpellGroup t ++ r)))).takeWhile
      isHexCh).take 8 = t.hex := by
    rw [List.takeWhile_append_of_pos hhex]
    rcases Nat.lt_or_ge t.hex.length 8 with hlt | hge
    · have hz : (t.name ++ ('|' :: 'r' :: (tokSpellGroup t ++ r))).takeWhile isHexCh
          = [] := by
        cases hn : t.name with
        | nil =>
          simp only [hn, List.nil_append]
          exact List.takeWhile_cons_of_neg (by decide)
        | cons c cs =>
          have hc : ¬ isHexCh c = true := by
            have := hnh hlt
            rw [hn] at this
            simp [headNotHex] at this
            simp [this]
          simp only [hn, List.cons_append]
          exact List.takeWhile_cons_of_neg hc
      rw [hz, List.append_nil, List.take_of_length_le (Nat.le_of_lt hlt)]
    · have h88 : t.hex.length = 8 := Nat.le_antisymm h8 hge
      exact List.take_left' h88
  simp only [matchCdAt, etw, if_neg (show ¬ t.hex.length < 6 by omega),
    List.drop_left, matchNameAndSpell_tok t r hname hws h1 h2 hd]
  simp [toCdMatch, mkTok]

theorem matchCdAt_mkTok_nil (t : TokSpec) (h : WfTok t) :
    matchCdAt (mkTok t) = some (toCdMatch t) := by
  have := matchCdAt_mkTok t h []
  rwa [List.append_nil] at this

/-- Two well-formed token texts that agree as strings describe the same
match (the parse of the text is deterministic). -/
theorem mkTok_eq_toCdMatch_eq {t u : TokSpec} (ht : WfTok t) (hu : WfTok u)
    (h : mkTok t = mkTok u) : toCdMatch t = toCdMatch u := by
  have h1 := matchCdAt_mkTok_nil t ht
  have h2 := matchCdAt_mkTok_nil u hu
  rw [h] at h1
  rw [h1] at h2
  exact Option.some_inj.mp h2

theorem mkTok_ne_nil (t : TokSpec) : mkTok t ≠ [] := by
  simp [mkTok]

/-- If a well-formed token text is a prefix of another well-formed token
text followed by anything, the two texts are equal (parse determinism). -/
theorem mkTok_prefix_eq {p u : TokSpec} (hp : WfTok p) (hu : WfTok u)
    {rest : List Char} (hpre : mkTok p <+: mkTok u ++ rest) :
    mkTok p = mkTok u := by
  obtain ⟨z, hz⟩ := hpre
  have h1 := matchCdAt_mkTok p hp z
  have h2 := matchCdAt_mkTok u hu rest
  rw [hz] at h1
  rw [h1] at h2
  exact congrArg CdMatch.full (Option.some_inj.mp h2)
/-! ### Scanning a concatenation of tokens -/

theorem findCds_tokConcat (ts : List TokSpec) (hwf : ∀ t ∈ ts, WfTok t) :
    findCds (tokConcat ts) = ts.map toCdMatch := by
  induction ts with
  | nil => simp [tokConcat]; rfl
  | cons t ts ih =>
    have hwt : WfTok t := hwf t (by simp)
    have hcat : tokConcat (t :: ts) = mkTok t ++ tokConcat ts := by
      simp [tokConcat]
    have hcons : mkTok t ++ tokConcat ts
        = '|' :: 'c' :: ((t.hex ++ t.name ++ '|' :: 'r' :: tokSpellGroup t)
            ++ tokConcat ts) := by
      simp [mkTok]
    rw [hcat, hcons, findCds_cons, ← hcons]
    simp only [matchCdAt_mkTok t hwt (tokConcat ts)]
    simp only [toCdMatch, List.drop_left]
    rw [ih (fun u hu => hwf u (List.mem_cons_of_mem _ hu))]
    simp [toCdMatch]

/-! ### `str.replace` over structured strings -/

theorem removeAll_of_not_infix {pat s : List Char} (h : ¬ pat <:+: s) :
    removeAll pat s = s := by
  induction s with
  | nil => exact removeAll_nil pat
  | cons c rest ih =>
    rw [removeAll_cons, if_neg]
    · rw [ih (fun hi => h (List.infix_cons hi))]
    · rintro ⟨-, hp⟩
      exact h (List.isPrefixOf_iff_prefix.mp hp).isInfix

theorem removeAll_append_pat {pat : List Char} (rest : List Char) (hne : pat ≠ []) :
    removeAll pat (pat ++ rest) = removeAll pat rest := by
  cases pat with
  | nil => exact absurd rfl hne
  | cons p ps =>
    rw [List.cons_append, removeAll_cons, if_pos]
    · simp [List.drop_left]
    · refine ⟨by simp, List.isPrefixOf_iff_prefix.mpr ?_⟩
      rw [← List.cons_append]
      exact List.prefix_append (p :: ps) rest

theorem removeAll_append_block {pat : List Char} (a rest : List Char)
    (h : ∀ a2 : List Char, a2 <:+ a → a2 ≠ [] → ¬ pat <+: (a2 ++ rest)) :
    removeAll pat (a ++ rest) = a ++ removeAll pat rest := by
  induction a with
  | nil => simp
  | cons c a' ih =>
    rw [List.cons_append, removeAll_cons, if_neg]
    · rw [ih (fun a2 hs hne2 => h a2 (hs.trans (List.suffix_cons c a')) hne2)]
      simp
    · rintro ⟨-, hp⟩
      exact h (c :: a') (List.suffix_refl _) (by simp)
        (by simpa using List.isPrefixOf_iff_prefix.mp hp)

theorem suffix_append_cases {α : Type} {a2 : List α} (l r : List α)
    (h : a2 <:+ l ++ r) :
    a2 <:+ r ∨ ∃ l2, l2 <:+ l ∧ l2 ≠ [] ∧ a2 = l2 ++ r := by
  induction l with
  | nil => left; simpa using h
  | cons x l ih =>
    rw [List.cons_append] at h
    rcases List.suffix_cons_iff.mp h with h | h
    · right
      exact ⟨x :: l, List.suffix_refl _, by simp, by simp [h]⟩
    · rcases ih h with h | ⟨l2, hs, hn, he⟩
      · left; exact h
      · right; exact ⟨l2, hs.trans (List.suffix_cons x l), hn, he⟩

theorem ne_pipe_of_pySpace {c : Char} (h : isPySpace c = true) : c ≠ '|' := by
  rintro rfl; exact absurd h (by decide)

theorem ne_pipe_of_digit {c : Char} (h : c.isDigit = true) : c ≠ '|' := by
  rintro rfl; exact absurd h (by decide)

theorem ne_pipe_of_hex {c : Char} (h : isHexCh c = true) : c ≠ '|' := by
  rintro rfl; exact absurd h (by decide)

theorem ne_pipe_of_wordSpace {c : Char} (h : isWordSpaceCh c = true) : c ≠ '|' := by
  rintro rfl; exact absurd h (by decide)

theorem mem_tokSpellGroup_ne_pipe {u : TokSpec} (hu : WfTok u) :
    ∀ c ∈ tokSpellGroup u, c ≠ '|' := by
  obtain ⟨-, -, -, -, -, hws, hd, h1, h2⟩ := hu
  intro c hc heq
  subst heq
  have h4 : tokSpellGroup u
      = u.ws ++ (spellOpen ++ (u.digits ++ ['\x7d', u.s1, u.s2])) := by
    simp [tokSpellGroup]
  rw [h4] at hc
  rcases List.mem_append.mp hc with h | hc
  · exact absurd (hws _ h) (by decide)
  rcases List.mem_append.mp hc with h | hc
  · exact absurd h (by decide)
  rcases List.mem_append.mp hc with h | hc
  · exact absurd (hd _ h) (by decide)
  rcases List.mem_cons.mp hc with h | hc
  · exact absurd h (by decide)
  rcases List.mem_cons.mp hc with h | hc
  · have : isPySpace '|' = true := by rw [h]; exact h1
    exact absurd this (by decide)
  rcases List.mem_cons.mp hc with h | hc
  · have : isPySpace '|' = true := by rw [h]; exact h2
    exact absurd this (by decide)
  · simp at hc

theorem mkTok_suffix_pipe {u : TokSpec} (hu : WfTok u) {a2 : List Char}
    (hs : a2 <:+ mkTok u) (hneq : a2 ≠ mkTok u) {z : List Char}
    (hhead : a2 = '|' :: z) :
    a2 = '|' :: 'r' :: tokSpellGroup u := by
  have hmk : mkTok u
      = '|' :: 'c' :: ((u.hex ++ u.name) ++ ('|' :: 'r' :: tokSpellGroup u)) := by
    simp [mkTok]
  rw [hmk] at hs
  rcases List.suffix_cons_iff.mp hs with h | h
  · exact absurd (h.trans hmk.symm) hneq
  rcases List.suffix_cons_iff.mp h with h | h
  · rw [hhead] at h; exact absurd (List.cons.inj h).1 (by decide)
  rcases suffix_append_cases _ _ h with h | ⟨l2, hsl, hln, he⟩
  · rcases List.suffix_cons_iff.mp h with h | h
    · exact h
    rcases List.suffix_cons_iff.mp h with h | h
    · rw [hhead] at h; exact absurd (List.cons.inj h).1 (by decide)
    · exfalso
      have hmem : '|' ∈ tokSpellGroup u := h.subset (hhead ▸ List.mem_cons_self _ _)
      exact mem_tokSpellGroup_ne_pipe hu '|' hmem rfl
  · exfalso
    obtain ⟨x, l2', rfl⟩ : ∃ x l2', l2 = x :: l2' := by
      cases l2 with
      | nil => exact absurd rfl hln
      | cons x l2' => exact ⟨x, l2', rfl⟩
    rw [hhead] at he
    have hx : x = '|' := ((List.cons.inj he.symm).1).symm ▸ rfl
    have hxm : x ∈ u.hex ++ u.name := hsl.subset (List.mem_cons_self _ _)
    obtain ⟨hhex, -, -, -, hname, -⟩ := hu
    rcases List.mem_append.mp hxm with hm | hm
    · exact ne_pipe_of_hex (hhex x hm) ((List.cons.inj he.symm).1.symm ▸ rfl)
    · exact ne_pipe_of_wordSpace (hname x hm) ((List.cons.inj he.symm).1.symm ▸ rfl)

theorem not_pat_prefix_of_block {p u : TokSpec} (hp : WfTok p) (hu : WfTok u)
    (hne : mkTok u ≠ mkTok p) (rest : List Char) :
    ∀ a2 : List Char, a2 <:+ mkTok u → a2 ≠ [] → ¬ mkTok p <+: (a2 ++ rest) := by
  intro a2 hs hne2 hpre
  by_cases heq : a2 = mkTok u
  · subst heq
    exact hne (mkTok_prefix_eq hp hu hpre).symm
  · obtain ⟨x, a2', rfl⟩ : ∃ x a2', a2 = x :: a2' := by
      cases a2 with
      | nil => exact absurd rfl hne2
      | cons x a2' => exact ⟨x, a2', rfl⟩
    obtain ⟨z, hz⟩ := hpre
    have hmk : mkTok p
        = '|' :: 'c' :: (p.hex ++ p.name ++ '|' :: 'r' :: tokSpellGroup p) := by
      simp [mkTok]
    have hx : x = '|' := by
      rw [hmk] at hz
      simp only [List.cons_append] at hz
      exact ((List.cons.inj hz).1).symm
    subst hx
    have ha2 := mkTok_suffix_pipe hu hs heq rfl
    rw [ha2] at hz
    rw [hmk] at hz
    simp only [List.cons_append] at hz
    exact absurd ((List.cons.inj (List.cons.inj hz).2).1) (by decide)

theorem removeAll_mkTok_tokConcat {p : TokSpec} (hp : WfTok p)
    (ts : List TokSpec) (hwf : ∀ t ∈ ts, WfTok t) :
    removeAll (mkTok p) (tokConcat ts)
      = tokConcat (ts.filter (fun t => decide (mkTok t ≠ mkTok p))) := by
  induction ts with
  | nil => simp [tokConcat, removeAll_nil]
  | cons u ts ih =>
    have hwu := hwf u (by simp)
    have hcat : tokConcat (u :: ts) = mkTok u ++ tokConcat ts := by
      simp [tokConcat]
    rw [hcat]
    by_cases heq : mkTok u = mkTok p
    · rw [heq, removeAll_append_pat _ (mkTok_ne_nil p),
        ih (fun t ht => hwf t (List.mem_cons_of_mem _ ht)), List.filter_cons]
      simp [heq]
    · rw [removeAll_append_block (mkTok u) (tokConcat ts)
          (not_pat_prefix_of_block hp hwu heq _),
        ih (fun t ht => hwf t (List.mem_cons_of_mem _ ht)), List.filter_cons]
      simp only [heq, decide_not, decide_eq_true_eq]
      rw [if_pos (by simp [heq])]
      simp [tokConcat]

theorem findCdsForHealer_tokConcat (ts : List TokSpec)
    (hwf : ∀ t ∈ ts, WfTok t) (healer : List Char) :
    findCdsForHealer (tokConcat ts) healer
      = (ts.filter (fun t => decide (t.name = healer))).map toCdMatch := by
  unfold findCdsForHealer
  rw [findCds_tokConcat ts hwf, List.filter_map]
  congr 1

theorem foldl_removeAll_specs (healer : List Char) :
    ∀ (qs cur : List TokSpec), (∀ q ∈ qs, WfTok q) → (∀ t ∈ cur, WfTok t) →
    (∀ q ∈ qs, q.name = healer) →
    ((qs.map toCdMatch).foldl
        (fun acc m => if m.name = healer then removeAll m.full acc else acc)
        (tokConcat cur))
      = tokConcat (cur.filter (fun t => decide (∀ q ∈ qs, mkTok t ≠ mkTok q))) := by
  intro qs
  induction qs with
  | nil =>
    intro cur _ _ _
    simp
  | cons q qs ih =>
    intro cur hq hcur hname
    simp only [List.map_cons, List.foldl_cons]
    rw [if_pos (show (toCdMatch q).name = healer from hname q (by simp))]
    have hfull : (toCdMatch q).full = mkTok q := rfl
    rw [hfull, removeAll_mkTok_tokConcat (hq q (by simp)) cur hcur]
    rw [ih (cur.filter (fun t => decide (mkTok t ≠ mkTok q)))
      (fun q' hq' => hq q' (List.mem_cons_of_mem _ hq'))
      (fun t ht => hcur t (List.mem_of_mem_filter ht))
      (fun q' hq' => hname q' (List.mem_cons_of_mem _ hq'))]
    rw [List.filter_filter]
    congr 1
    apply List.filter_congr
    intro t _
    simp [List.forall_mem_cons, Bool.and_comm]

theorem removeCdsFromEvent_tokConcat (ts : List TokSpec)
    (hwf : ∀ t ∈ ts, WfTok t) (healer : List Char) :
    removeCdsFromEvent (tokConcat ts) healer
      = tokConcat (ts.filter (fun t => decide (t.name ≠ healer))) := by
  unfold removeCdsFromEvent
  rw [findCdsForHealer_tokConcat ts hwf healer]
  rw [foldl_removeAll_specs healer (ts.filter (fun t => decide (t.name = healer))) ts
      (fun q hq => hwf q (List.mem_of_mem_filter hq)) hwf
      (fun q hq => by simpa using (List.mem_filter.mp hq).2)]
  congr 1
  apply List.filter_congr
  intro t ht
  simp only [decide_eq_decide]
  constructor
  · intro hall hn
    exact hall t (List.mem_filter.mpr ⟨ht, by simp [hn]⟩) rfl
  · intro hn q hq heq
    have hqh : q.name = healer := by simpa using (List.mem_filter.mp hq).2
    have hmm := mkTok_eq_toCdMatch_eq (hwf t ht) (hwf q (List.mem_of_mem_filter hq)) heq
    have hnm : t.name = q.name := congrArg CdMatch.name hmm
    exact hn (hnm.trans hqh)

theorem foldl_roster_removeCds : ∀ (roster : List (List Char)) (ts : List TokSpec),
    (∀ t ∈ ts, WfTok t) →
    roster.foldl removeCdsFromEvent (tokConcat ts)
      = tokConcat (ts.filter (fun t => decide (t.name ∉ roster))) := by
  intro roster
  induction roster with
  | nil => intro ts _; simp
  | cons h roster ih =>
    intro ts hwf
    simp only [List.foldl_cons]
    rw [removeCdsFromEvent_tokConcat ts hwf h]
    rw [ih _ (fun t ht => hwf t (List.mem_of_mem_filter ht))]
    rw [List.filter_filter]
    congr 1
    apply List.filter_congr
    intro t _
    simp only [List.mem_cons, not_or, Bool.decide_and]
    rw [Bool.and_comm]

theorem mem_mkTok_ne_dash {t : TokSpec} (ht : WfTok t) :
    ∀ c ∈ mkTok t, c ≠ '-' := by
  obtain ⟨hhex, -, -, -, hname, hws, hd, h1, h2⟩ := ht
  intro c hc heq
  subst heq
  have h4 : mkTok t
      = '|' :: 'c' :: (t.hex ++ (t.name ++ ('|' :: 'r' :: (t.ws
          ++ (spellOpen ++ (t.digits ++ ['\x7d', t.s1, t.s2]))))))  := by
    simp [mkTok, tokSpellGroup]
  rw [h4] at hc
  rcases List.mem_cons.mp hc with h | hc
  · exact absurd h (by decide)
  rcases List.mem_cons.mp hc with h | hc
  · exact absurd h (by decide)
  rcases List.mem_append.mp hc with h | hc
  · exact absurd (hhex _ h) (by decide)
  rcases List.mem_append.mp hc with h | hc
  · exact absurd (hname _ h) (by decide)
  rcases List.mem_cons.mp hc with h | hc
  · exact absurd h (by decide)
  rcases List.mem_cons.mp hc with h | hc
  · exact absurd h (by decide)
  rcases List.mem_append.mp hc with h | hc
  · exact absurd (hws _ h) (by decide)
  rcases List.mem_append.mp hc with h | hc
  · exact absurd h (by decide)
  rcases List.mem_append.mp hc with h | hc
  · exact absurd (hd _ h) (by decide)
  rcases List.mem_cons.mp hc with h | hc
  · exact absurd h (by decide)
  rcases List.mem_cons.mp hc with h | hc
  · have : isPySpace '-' = true := by rw [h]; exact h1
    exact absurd this (by decide)
  rcases List.mem_cons.mp hc with h | hc
  · have : isPySpace '-' = true := by rw [h]; exact h2
    exact absurd this (by decide)
  · simp at hc

theorem removeAll_singleton_filter (c : Char) (s : List Char) :
    removeAll [c] s = s.filter (fun x => decide (x ≠ c)) := by
  induction s with
  | nil => exact removeAll_nil [c]
  | cons x rest ih =>
    rw [removeAll_cons]
    by_cases hx : x = c
    · subst hx
      rw [if_pos ⟨by simp, by simp [List.isPrefixOf]⟩]
      simp [ih]
    · rw [if_neg]
      · simp [hx, ih]
      · rintro ⟨-, hp⟩
        rcases List.isPrefixOf_iff_prefix.mp hp with ⟨w, hw⟩
        exact hx (List.cons.inj hw).1.symm

theorem tokConcat_eq_nil_iff (ts : List TokSpec) :
    tokConcat ts = [] ↔ ts = [] := by
  constructor
  · intro h
    cases ts with
    | nil => rfl
    | cons t ts =>
      exfalso
      rw [tokConcat, List.map_cons, List.flatten_cons] at h
      exact mkTok_ne_nil t (List.append_eq_nil.mp h).1
  · rintro rfl; rfl

/-- The stripper's behaviour on a canonical line: a header followed by a
pure concatenation of newline-free well-formed tokens and an optional
terminator.  Exactly the non-roster tokens survive, in order. -/
theorem stripContribution_canonical (H term : List Char) (ts : List TokSpec)
    (hwf : ∀ t ∈ ts, WfTok t)
    (hnl : ∀ t ∈ ts, '\n' ∉ mkTok t)
    (hhdr : findHeader (H ++ tokConcat ts ++ term) = H)
    (hdash : '-' ∈ H)
    (hterm : term = [] ∨ term = ['\n']) :
    stripContribution (H ++ tokConcat ts ++ term)
      = if ts.filter (fun t => decide (t.name ∉ HEALER_ROSTER)) = [] then []
        else [H ++ tokConcat (ts.filter (fun t => decide (t.name ∉ HEALER_ROSTER)))] := by
  have hHne : H ≠ [] := List.ne_nil_of_mem hdash
  have hnodash : '-' ∉ tokConcat ts ++ term := by
    intro hmem
    rcases List.mem_append.mp hmem with h | h
    · rw [tokConcat] at h
      rcases List.mem_flatten.mp h with ⟨l, hl, hcl⟩
      rcases List.mem_map.mp hl with ⟨t, ht, rfl⟩
      exact mem_mkTok_ne_dash (hwf t ht) _ hcl rfl
    · rcases hterm with rfl | rfl
      · simp at h
      · exact absurd (List.mem_singleton.mp h) (by decide)
  have hp1 : removeAll H (H ++ tokConcat ts ++ term) = tokConcat ts ++ term := by
    rw [List.append_assoc, removeAll_append_pat _ hHne]
    apply removeAll_of_not_infix
    intro hinf
    exact hnodash (hinf.subset hdash)
  have hp2 : removeAll ['\n'] (tokConcat ts ++ term) = tokConcat ts := by
    rw [removeAll_singleton_filter, List.filter_append]
    have h1 : (tokConcat ts).filter (fun x => decide (x ≠ '\n')) = tokConcat ts := by
      rw [List.filter_eq_self]
      intro a ha
      rw [tokConcat] at ha
      rcases List.mem_flatten.mp ha with ⟨l, hl, hal⟩
      rcases List.mem_map.mp hl with ⟨t, ht, rfl⟩
      simp only [decide_eq_true_eq]
      intro he
      subst he
      exact hnl t ht hal
    have h2 : term.filter (fun x => decide (x ≠ '\n')) = [] := by
      rcases hterm with rfl | rfl <;> simp
    rw [h1, h2, List.append_nil]
  simp only [stripContribution]
  rw [hhdr, hp1, hp2, foldl_roster_removeCds HEALER_ROSTER ts hwf]
  by_cases hemp : ts.filter (fun t => decide (t.name ∉ HEALER_ROSTER)) = []
  · rw [if_pos ((tokConcat_eq_nil_iff _).mpr hemp), if_pos hemp]
  · rw [if_neg (fun hc => hemp ((tokConcat_eq_nil_iff _).mp hc)), if_neg hemp]

/-! ### The line normalizer -/

theorem subBug1Line_head (s : List Char) :
    (subBug1Line s).head? = s.head? := by
  induction s using subBug1Line.induct with
  | case1 rest ih => rw [subBug1Line.eq_1]; rfl
  | case2 c rest hside ih => rw [subBug1Line.eq_2 c rest hside]; rfl
  | case3 => rfl

theorem subBug1Line_eq_rbrace : ∀ {s t : List Char},
    subBug1Line s = 'r' :: '\x7b' :: t → ∃ u, s = 'r' :: '\x7b' :: u := by
  intro s t h
  obtain ⟨s1, rfl⟩ : ∃ s1, s = 'r' :: s1 := by
    have hh := subBug1Line_head s
    rw [h] at hh
    cases s with
    | nil => simp at hh
    | cons a s1 =>
      simp only [List.head?_cons, Option.some_inj] at hh
      exact ⟨s1, by rw [← hh]⟩
  rw [subBug1Line.eq_2 'r' s1 (fun _ hc _ => absurd hc (by decide))] at h
  have h2 := (List.cons.inj h).2
  obtain ⟨s2, rfl⟩ : ∃ s2, s1 = '\x7b' :: s2 := by
    have hh := subBug1Line_head s1
    rw [h2] at hh
    cases s1 with
    | nil => simp at hh
    | cons a s2 =>
      simp only [List.head?_cons, Option.some_inj] at hh
      exact ⟨s2, by rw [← hh]⟩
  exact ⟨s2, rfl⟩

theorem not_bug_infix_subBug1Line : ∀ s, ¬ (['|', 'r', '\x7b'] <:+: subBug1Line s) := by
  intro s
  induction s using subBug1Line.induct with
  | case1 rest ih =>
    rw [subBug1Line.eq_1]
    intro hinf
    rcases List.infix_cons_iff.mp hinf with hp | hinf
    · obtain ⟨w, hw⟩ := hp
      simp at hw
    · rcases List.infix_cons_iff.mp hinf with hp | hinf
      · obtain ⟨w, hw⟩ := hp
        simp at hw
      · rcases List.infix_cons_iff.mp hinf with hp | hinf
        · obtain ⟨w, hw⟩ := hp
          simp at hw
        · rcases List.infix_cons_iff.mp hinf with hp | hinf
          · obtain ⟨w, hw⟩ := hp
            simp at hw
          · exact ih hinf
  | case2 c rest hside ih =>
    rw [subBug1Line.eq_2 c rest hside]
    intro hinf
    rcases List.infix_cons_iff.mp hinf with hp | hinf
    · obtain ⟨w, hw⟩ := hp
      rw [List.cons_append, List.cons_append, List.cons_append] at hw
      obtain ⟨hc, h2⟩ := List.cons.inj hw
      obtain ⟨u, hu⟩ := subBug1Line_eq_rbrace h2.symm
      exact hside u hc.symm hu
    · exact ih hinf
  | case3 =>
    intro hinf
    have := List.eq_nil_of_infix_nil hinf
    simp at this

theorem subBug1Line_of_not_infix : ∀ {s : List Char},
    ¬ (['|', 'r', '\x7b'] <:+: s) → subBug1Line s = s := by
  intro s
  induction s using subBug1Line.induct with
  | case1 rest ih =>
    intro h
    exact absurd (List.IsPrefix.isInfix ⟨rest, rfl⟩) h
  | case2 c rest hside ih =>
    intro h
    rw [subBug1Line.eq_2 c rest hside, ih (fun hi => h (List.infix_cons hi))]
  | case3 => intro _; rfl

theorem subBug1Line_idem (s : List Char) :
    subBug1Line (subBug1Line s) = subBug1Line s :=
  subBug1Line_of_not_infix (not_bug_infix_subBug1Line s)

/-! ### Remaining support lemmas -/

theorem getHealerCdTextFromMatches_eq (ms : List CdMatch) :
    getHealerCdTextFromMatches ms = (ms.map (·.full)).flatten := by
  have haux : ∀ (ms : List CdMatch) (acc : List Char),
      ms.foldl (fun cdText m => cdText ++ m.full) acc
        = acc ++ (ms.map (·.full)).flatten := by
    intro ms
    induction ms with
    | nil => intro acc; simp
    | cons m ms ih => intro acc; simp [ih]
  simpa using haux ms []

theorem healerCdText_eq_nil_iff (event healer : List Char) :
    getHealerCdTextFromMatches (findCdsForHealer event healer) = []
      ↔ findCdsForHealer event healer = [] := by
  rw [getHealerCdTextFromMatches_eq]
  constructor
  · intro h
    cases hm : findCdsForHealer event healer with
    | nil => rfl
    | cons m ms =>
      exfalso
      rw [hm] at h
      simp only [List.map_cons, List.flatten_cons, List.append_eq_nil] at h
      have hmem : m ∈ findCdsForHealer event healer := by rw [hm]; simp
      have hpos := mem_findCds_full_pos (List.mem_of_mem_filter hmem)
      rw [h.1] at hpos
      simp at hpos
  · intro h; rw [h]; rfl

theorem validDedup_dedupFirst : ValidDedup dedupFirst := by
  intro l
  exact ⟨List.nodup_dedup l, fun x => List.mem_dedup⟩

theorem validDedup_dedupRev : ValidDedup dedupRev := by
  intro l
  refine ⟨List.nodup_reverse.mpr (List.nodup_dedup l), fun x => ?_⟩
  rw [dedupRev, List.mem_reverse, List.mem_dedup]

theorem matchCdAt_head_pipe {s : List Char} {m : CdMatch}
    (h : matchCdAt s = some m) : ∃ u, s = '|' :: 'c' :: u := by
  unfold matchCdAt at h
  repeat' first
    | exact Option.noConfusion h
    | split at h
  exact ⟨_, rfl⟩

theorem findCds_eq_nil_of_no_pipe : ∀ s : List Char,
    (∀ c ∈ s, c ≠ '|') → findCds s = [] := by
  intro s
  induction s with
  | nil => intro _; rfl
  | cons c rest ih =>
    intro h
    rw [findCds_cons]
    cases hm : matchCdAt (c :: rest) with
    | none =>
      simp only
      exact ih (fun a ha => h a (List.mem_cons_of_mem _ ha))
    | some m =>
      exfalso
      obtain ⟨u, hu⟩ := matchCdAt_head_pipe hm
      exact h c (List.mem_cons_self _ _) (List.cons.inj hu).1

/-! ### Claim theorems -/

/-- C1: for an event line with a well-formed header, when the line has at
least one token whose captured assignee is `healer`, the splitter
contributes exactly one line for it — the extracted header followed by the
full matched texts of those tokens concatenated in left-to-right match
order — and an event with zero tokens for `healer` contributes nothing
(no blank line, no header-only line); contributions concatenate
per event across the event list. -/
theorem claim_C1 (event healer : List Char) (_hok : findHeaderOpt event ≠ none) :
    (findCdsForHealer event healer ≠ [] →
        splitContribution event healer
          = [findHeader event
              ++ ((findCdsForHealer event healer).map (·.full)).flatten])
    ∧ (findCdsForHealer event healer = [] → splitContribution event healer = [])
    ∧ (∀ es1 es2 : List (List Char),
        doSplitHealerEvents (es1 ++ es2) healer
          = doSplitHealerEvents es1 healer ++ doSplitHealerEvents es2 healer) := by
  refine ⟨?_, ?_, ?_⟩
  · intro hne
    simp only [splitContribution]
    rw [if_neg (fun hc => hne ((healerCdText_eq_nil_iff event healer).mp hc))]
    rw [getHealerCdTextFromMatches_eq]
  · intro h
    simp only [splitContribution]
    rw [if_pos ((healerCdText_eq_nil_iff event healer).mpr h)]
  · intro es1 es2
    simp only [doSplitHealerEvents, handleDataFormatBug1]
    rw [List.map_append, List.flatMap_append]

/-- C1 witness: the spec's scenario line, for Runnz. -/
theorem claim_C1_witness :
    splitContribution
        "EventA - 00:30 - |cfff38bb9Runnz|r  \x7bspell:111\x7d  |c00ff0000Pv|r  \x7bspell:222\x7d  ".toList
        "Runnz".toList
      = [findHeader
            "EventA - 00:30 - |cfff38bb9Runnz|r  \x7bspell:111\x7d  |c00ff0000Pv|r  \x7bspell:222\x7d  ".toList
          ++ ((findCdsForHealer
                "EventA - 00:30 - |cfff38bb9Runnz|r  \x7bspell:111\x7d  |c00ff0000Pv|r  \x7bspell:222\x7d  ".toList
                "Runnz".toList).map (·.full)).flatten] :=
  (claim_C1 _ _ (by decide)).1 (by decide)

/-- C5: a line that fails the header pattern gets the single-space
placeholder (after a logged, non-fatal error): the extractor returns `" "`,
the splitter still emits the placeholder header followed by the line's
matching tokens, the stripper emits (if anything) a line starting with the
placeholder, and per-line processing composes over the event list, so one
malformed line never aborts the rest of the run. -/
theorem claim_C5 (event : List Char) (h : findHeaderOpt event = none) :
    findHeader event = [' ']
    ∧ (∀ healer, findCdsForHealer event healer ≠ [] →
        splitContribution event healer
          = [' ' :: getHealerCdTextFromMatches (findCdsForHealer event healer)])
    ∧ (stripContribution event = []
        ∨ ∃ r, stripContribution event = [' ' :: r])
    ∧ (∀ (es1 es2 : List (List Char)) (healer : List Char),
        doSplitHealerEvents (es1 ++ es2) healer
          = doSplitHealerEvents es1 healer ++ doSplitHealerEvents es2 healer) := by
  have h1 : findHeader event = [' '] := by
    unfold findHeader
    rw [h]
  refine ⟨h1, ?_, ?_, ?_⟩
  · intro healer hne
    simp only [splitContribution]
    rw [if_neg (fun hc => hne ((healerCdText_eq_nil_iff event healer).mp hc)), h1]
    rfl
  · simp only [stripContribution, h1]
    by_cases hX : HEALER_ROSTER.foldl removeCdsFromEvent
        (removeAll ['\n'] (removeAll [' '] event)) = []
    · left; rw [if_pos hX]
    · right
      exact ⟨HEALER_ROSTER.foldl removeCdsFromEvent
          (removeAll ['\n'] (removeAll [' '] event)), by rw [if_neg hX]; simp⟩
  · intro es1 es2 healer
    simp only [doSplitHealerEvents, handleDataFormatBug1]
    rw [List.map_append, List.flatMap_append]

/-- C5 witness: a dash-free line with a Pv token. -/
theorem claim_C5_witness :
    findHeader "xo |cffffffPv|r \x7bspell:7\x7d  \n".toList = [' ']
    ∧ splitContribution "xo |cffffffPv|r \x7bspell:7\x7d  \n".toList "Pv".toList
      = [' ' :: getHealerCdTextFromMatches
          (findCdsForHealer "xo |cffffffPv|r \x7bspell:7\x7d  \n".toList "Pv".toList)] :=
  ⟨(claim_C5 _ (by decide)).1,
   (claim_C5 _ (by decide)).2.1 _ (by decide)⟩

/-- C8: as a set, the token texts collected per identity (the filtered
matcher) over all identities are exactly the token texts of the unfiltered
matcher on the same line. -/
theorem claim_C8 (event t : List Char) :
    (∃ x, t ∈ (findCdsForHealer event x).map (·.full))
      ↔ t ∈ (findCds event).map (·.full) := by
  constructor
  · rintro ⟨x, ht⟩
    rcases List.mem_map.mp ht with ⟨m, hm, rfl⟩
    exact List.mem_map_of_mem _ (List.mem_of_mem_filter hm)
  · intro ht
    rcases List.mem_map.mp ht with ⟨m, hm, rfl⟩
    exact ⟨m.name, List.mem_map_of_mem _ (List.mem_filter.mpr ⟨hm, by simp⟩)⟩

/-- C9: the normalizer maps a list of lines to a list of the same length,
is idempotent, produces lines free of the `|r{` defect, acts as the
identity on lines already free of it, and inserts exactly one space at a
leading occurrence. -/
theorem claim_C9 :
    (∀ eventList : List (List Char),
        (handleDataFormatBug1 eventList).length = eventList.length)
    ∧ (∀ eventList : List (List Char),
        handleDataFormatBug1 (handleDataFormatBug1 eventList)
          = handleDataFormatBug1 eventList)
    ∧ (∀ s : List Char, ¬ (['|', 'r', '\x7b'] <:+: subBug1Line s))
    ∧ (∀ s : List Char, ¬ (['|', 'r', '\x7b'] <:+: s) → subBug1Line s = s)
    ∧ (∀ b : List Char, subBug1Line ('|' :: 'r' :: '\x7b' :: b)
        = '|' :: 'r' :: ' ' :: '\x7b' :: subBug1Line b) := by
  refine ⟨?_, ?_, not_bug_infix_subBug1Line,
    fun s h => subBug1Line_of_not_infix h, fun b => subBug1Line.eq_1 b⟩
  · intro es
    simp [handleDataFormatBug1]
  · intro es
    simp only [handleDataFormatBug1, List.map_map]
    apply List.map_congr_left
    intro a _
    exact subBug1Line_idem a

/-- C9 witness: the already-clean spell reference is untouched. -/
theorem claim_C9_witness :
    subBug1Line "a|r \x7bspell:9\x7d".toList = "a|r \x7bspell:9\x7d".toList :=
  claim_C9.2.2.2.1 _ (by decide)

/-- C10 counterexample: a line whose pre-dash text is a full token; the
greedy header swallows it, so the extracted header itself contains an
assignment-token match. -/
theorem claim_C10_counterexample :
    findHeader "|cffffffPv|r \x7bspell:1\x7d  - x - tail".toList
      = "|cffffffPv|r \x7bspell:1\x7d  - x - ".toList
    ∧ (findCds (findHeader "|cffffffPv|r \x7bspell:1\x7d  - x - tail".toList)).map (·.full)
      = ["|cffffffPv|r \x7bspell:1\x7d  ".toList] := by
  constructor
  · decide
  · decide

/-- C10 amended: the extracted header contains no assignment-token match
whenever it contains no `|` character (true of every header whose pre-dash
text is ordinary timestamp/ability text); in general the greedy header can
swallow token text appearing before the dash delimiters. -/
theorem claim_C10_amended (event : List Char)
    (h : ∀ c ∈ findHeader event, c ≠ '|') :
    findCds (findHeader event) = [] :=
  findCds_eq_nil_of_no_pipe _ h

/-- C10 amended witness: an ordinary header. -/
theorem claim_C10_amended_witness :
    findCds (findHeader "EventA - 00:30 - |cffffffPv|r \x7bspell:1\x7d  ".toList) = [] :=
  claim_C10_amended _ (by decide)

/-- C2 counterexample: on this line the only roster token is Runnz's, yet
the emitted stripped line contains a token whose captured assignee is the
roster member Pv — removing Runnz's text splices the surrounding characters
(`|cffffff` and `Pv|r {spell:99}  `) into a brand-new Pv token, so the
output is not "exactly the non-roster tokens" and does contain a
roster-assignee token substring. -/
theorem claim_C2_counterexample :
    stripContribution
        "A - 1 - |cffffff|cfff38bb9Runnz|r \x7bspell:31821\x7d  Pv|r \x7bspell:99\x7d  \n".toList
      = ["A - 1 - |cffffffPv|r \x7bspell:99\x7d  ".toList]
    ∧ (findCds "A - 1 - |cffffffPv|r \x7bspell:99\x7d  ".toList).map (·.name)
      = ["Pv".toList]
    ∧ "Pv".toList ∈ HEALER_ROSTER
    ∧ (∀ m ∈ findCds
        "A - 1 - |cffffff|cfff38bb9Runnz|r \x7bspell:31821\x7d  Pv|r \x7bspell:99\x7d  \n".toList,
        m.name ∈ HEALER_ROSTER → m.name = "Runnz".toList) := by
  refine ⟨by decide, by decide, by decide, by decide⟩

/-- C2 amended: for event lines whose body is a pure concatenation of
well-formed newline-free assignment tokens after the header (no stray text
between tokens), the stripper emits exactly the header followed by the
non-roster tokens in their original relative order — nothing when none
remain — and every token of the emitted body has a non-roster assignee.
(The unrestricted claim fails: with stray text between tokens, a removal
can splice a new roster token into existence; see the counterexample.) -/
theorem claim_C2_amended (H term : List Char) (ts : List TokSpec)
    (hwf : ∀ t ∈ ts, WfTok t)
    (hnl : ∀ t ∈ ts, '\n' ∉ mkTok t)
    (hhdr : findHeader (H ++ tokConcat ts ++ term) = H)
    (hdash : '-' ∈ H)
    (hterm : term = [] ∨ term = ['\n']) :
    stripContribution (H ++ tokConcat ts ++ term)
      = (if ts.filter (fun t => decide (t.name ∉ HEALER_ROSTER)) = [] then []
         else [H ++ tokConcat (ts.filter (fun t => decide (t.name ∉ HEALER_ROSTER)))])
    ∧ ∀ m ∈ findCds (tokConcat (ts.filter (fun t => decide (t.name ∉ HEALER_ROSTER)))),
        m.name ∉ HEALER_ROSTER := by
  refine ⟨stripContribution_canonical H term ts hwf hnl hhdr hdash hterm, ?_⟩
  intro m hm
  rw [findCds_tokConcat _ (fun t ht => hwf t (List.mem_of_mem_filter ht))] at hm
  rcases List.mem_map.mp hm with ⟨t, ht, rfl⟩
  have hf := (List.mem_filter.mp ht).2
  simp only [decide_eq_true_eq] at hf
  exact hf

/-- C2 amended witness: header plus a Runnz token and a non-roster Bob
token; the stripped line keeps exactly Bob's token. -/
theorem claim_C2_amended_witness :
    stripContribution ("EventA - 00:30 - ".toList
        ++ tokConcat
            [⟨"fff38bb9".toList, "Runnz".toList, [' '], "31821".toList, ' ', ' '⟩,
             ⟨"00ff0000".toList, "Bob".toList, [' '], "99".toList, ' ', ' '⟩]
        ++ ['\n'])
      = (if ([⟨"fff38bb9".toList, "Runnz".toList, [' '], "31821".toList, ' ', ' '⟩,
              ⟨"00ff0000".toList, "Bob".toList, [' '], "99".toList, ' ', ' '⟩]
              : List TokSpec).filter (fun t => decide (t.name ∉ HEALER_ROSTER)) = []
         then []
         else ["EventA - 00:30 - ".toList
            ++ tokConcat (([⟨"fff38bb9".toList, "Runnz".toList, [' '], "31821".toList, ' ', ' '⟩,
                ⟨"00ff0000".toList, "Bob".toList, [' '], "99".toList, ' ', ' '⟩]
                : List TokSpec).filter (fun t => decide (t.name ∉ HEALER_ROSTER)))]) :=
  (claim_C2_amended _ _ _ (by decide) (by decide) (by decide) (by decide)
    (Or.inr rfl)).1

/-- C3: for any admissible set order, the header tag's viewer list consists
exactly of the assignees of the event's tokens plus the raid lead exactly
when some token's visibility decision is true; under the
`NON_HEALER_CDS` policy an event whose tokens all belong to roster members
has a false supervisor flag and no raid lead in the viewer list. -/
theorem claim_C3 (d : List (List Char) → List (List Char)) (hd : ValidDedup d)
    (event : List Char) (vis : RaidLeadVisibility)
    (_hne : findCds event ≠ []) :
    (∀ x, x ∈ d (headerVisibilityList event vis)
        ↔ ((∃ m ∈ findCds event, m.name = x)
            ∨ (x = RAID_LEAD
                ∧ (findCds event).any
                    (fun m => shouldBeVisibleToRaidLeader m.name vis) = true)))
    ∧ (vis = .NON_HEALER_CDS →
        (∀ m ∈ findCds event, m.name ∈ HEALER_ROSTER) →
        ((findCds event).any
            (fun m => shouldBeVisibleToRaidLeader m.name vis) = false
          ∧ RAID_LEAD ∉ d (headerVisibilityList event vis))) := by
  constructor
  · intro x
    rw [(hd _).2 x]
    simp only [headerVisibilityList]
    by_cases hany : (findCds event).any
        (fun m => shouldBeVisibleToRaidLeader m.name vis) = true
    · rw [if_pos hany, List.mem_append]
      simp [hany, List.mem_map, eq_comm]
    · rw [if_neg hany]
      simp [List.mem_map, hany, eq_comm]
  · intro hv hall
    subst hv
    have hfl : (findCds event).any
        (fun m => shouldBeVisibleToRaidLeader m.name .NON_HEALER_CDS) = false := by
      rw [List.any_eq_false]
      intro m hm
      have hmem := hall m hm
      simp [shouldBeVisibleToRaidLeader, hmem]
    refine ⟨hfl, ?_⟩
    rw [(hd _).2]
    simp only [headerVisibilityList]
    rw [if_neg (by simp [hfl])]
    intro hmem
    rcases List.mem_map.mp hmem with ⟨m, hm, hname⟩
    have hrl : RAID_LEAD ∈ HEALER_ROSTER := hname ▸ hall m hm
    exact absurd hrl (by decide)

/-- C3 witness: the spec's scenario line under `NON_HEALER_CDS` with the
first-seen set order: both assignees are roster members, so the raid lead
is excluded from the header viewer list. -/
theorem claim_C3_witness :
    RAID_LEAD ∉ dedupFirst (headerVisibilityList
      "EventA - 00:30 - |cfff38bb9Runnz|r  \x7bspell:111\x7d  |c00ff0000Pv|r  \x7bspell:222\x7d  ".toList
      .NON_HEALER_CDS) :=
  ((claim_C3 dedupFirst validDedup_dedupFirst _ _ (by decide)).2 rfl (by decide)).2

/-- C4 counterexample: a token whose assignee IS the raid lead
("Slickduck") under the `NON_HEALER_CDS` policy (the one `main` uses)
produces the per-token viewer list `Slickduck,Slickduck` — a duplicate —
and the emitted tag shows it. -/
theorem claim_C4_counterexample :
    (findCds "A - 1 - |cffffffSlickduck|r \x7bspell:1\x7d  ".toList).map
        (fun m => tokenVisibilityList m .NON_HEALER_CDS)
      = [["Slickduck".toList, "Slickduck".toList]]
    ∧ ¬ (["Slickduck".toList, "Slickduck".toList] : List (List Char)).Nodup
    ∧ (findCds "A - 1 - |cffffffSlickduck|r \x7bspell:1\x7d  ".toList).map
        (fun m => getEncapsulatedCdFromMatch m .NON_HEALER_CDS)
      = ["\x7bp:Slickduck,Slickduck\x7d|cffffffSlickduck|r \x7bspell:1\x7d  \x7b/p\x7d".toList] := by
  refine ⟨by decide, by decide, by decide⟩

/-- C4 amended: a per-token viewer list is duplicate-free whenever the
token's assignee is not a raid-lead-visible occurrence of the raid lead
itself; header viewer lists are always duplicate-free (they pass through
the set deduplication after the raid lead is appended). -/
theorem claim_C4_amended :
    (∀ (m : CdMatch) (vis : RaidLeadVisibility),
        (shouldBeVisibleToRaidLeader m.name vis = true → m.name ≠ RAID_LEAD) →
        (tokenVisibilityList m vis).Nodup)
    ∧ (∀ d, ValidDedup d →
        ∀ (event : List Char) (vis : RaidLeadVisibility),
          (d (headerVisibilityList event vis)).Nodup) := by
  constructor
  · intro m vis hy
    by_cases hv : shouldBeVisibleToRaidLeader m.name vis = true
    · rw [tokenVisibilityList, if_pos hv]
      simp [Ne.symm (hy hv)]
    · rw [tokenVisibilityList, if_neg hv]
      simp
  · intro d hd event vis
    exact (hd _).1

/-- C4 amended witness: Pv's token under `NON_HEALER_CDS`, and a concrete
header list through the first-seen set order. -/
theorem claim_C4_amended_witness :
    (tokenVisibilityList
        { full := "|c00ff0000Pv|r  \x7bspell:222\x7d  ".toList
          name := "Pv".toList
          spell := "  \x7bspell:222\x7d  ".toList } .NON_HEALER_CDS).Nodup
    ∧ (dedupFirst (headerVisibilityList
        "A - 1 - |cffffffSlickduck|r \x7bspell:1\x7d  ".toList .ALL)).Nodup :=
  ⟨claim_C4_amended.1 _ _ (fun _ => by decide),
   claim_C4_amended.2 dedupFirst validDedup_dedupFirst _ _⟩

/-- C6 counterexample: with the source missing, the run aborts with an
uncaught error, but only AFTER the per-assignee and non-roster files have
been truncated — their prior contents are gone with no replacement
produced, contradicting "aborts before any output truncation". -/
theorem claim_C6_counterexample :
    (mainRun { source := none
               healerFiles := List.replicate 7 (some ['h'])
               nonHealer := some ['o']
               encapsulated := some ['e'] }).ok = false
    ∧ (mainRun { source := none
                 healerFiles := List.replicate 7 (some ['h'])
                 nonHealer := some ['o']
                 encapsulated := some ['e'] }).fs.nonHealer = some []
    ∧ (mainRun { source := none
                 healerFiles := List.replicate 7 (some ['h'])
                 nonHealer := some ['o']
                 encapsulated := some ['e'] }).fs.healerFiles
        = List.replicate 7 (some []) := by
  refine ⟨by decide, by decide, by decide⟩

/-- C6 amended: when the source is missing the run does abort with an
uncaught error and writes no output, but the per-assignee and non-roster
files are truncated BEFORE the source open (so their contents are lost);
only the encapsulated file keeps its prior contents. -/
theorem claim_C6_amended (fs : FS) (h : fs.source = none) :
    (mainRun fs).ok = false
    ∧ (mainRun fs).fs.encapsulated = fs.encapsulated
    ∧ (mainRun fs).fs.nonHealer = clearFile fs.nonHealer
    ∧ (mainRun fs).fs.healerFiles
        = HEALER_ROSTER.zipWith (fun _ c => clearFile c) fs.healerFiles
    ∧ (mainRun fs).fs.source = fs.source := by
  simp [mainRun, h]

/-- C6 amended witness. -/
theorem claim_C6_amended_witness :
    (mainRun { source := none, healerFiles := [], nonHealer := some ['x']
               encapsulated := some ['e'] }).ok = false
    ∧ (mainRun { source := none, healerFiles := [], nonHealer := some ['x']
                 encapsulated := some ['e'] }).fs.encapsulated = some ['e'] :=
  ⟨(claim_C6_amended _ rfl).1, (claim_C6_amended _ rfl).2.1⟩

/-- C7 counterexample: the header tag's viewer list comes from iterating a
Python set, whose order is hash-dependent; two admissible set orders (both
duplicate-free with the same members) yield different encapsulated output
on the same input, so the output is not determined by the input alone. -/
theorem claim_C7_counterexample :
    ValidDedup dedupFirst ∧ ValidDedup dedupRev
    ∧ encapsulateEventD dedupFirst
        "EventA - 00:30 - |cfff38bb9Runnz|r  \x7bspell:111\x7d  |c00ff0000Pv|r  \x7bspell:222\x7d  ".toList
        .NON_HEALER_CDS
      ≠ encapsulateEventD dedupRev
        "EventA - 00:30 - |cfff38bb9Runnz|r  \x7bspell:111\x7d  |c00ff0000Pv|r  \x7bspell:222\x7d  ".toList
        .NON_HEALER_CDS :=
  ⟨validDedup_dedupFirst, validDedup_dedupRev, by decide⟩

/-- C7 amended: the encapsulator is deterministic up to the order of each
header tag's viewer list: for any two admissible set orders the viewer
lists are permutations of each other, and whenever the orders agree the
produced output text is identical (per-token tags never pass through the
set, so they are always identical). -/
theorem claim_C7_amended (d1 d2 : List (List Char) → List (List Char))
    (h1 : ValidDedup d1) (h2 : ValidDedup d2) (event : List Char)
    (vis : RaidLeadVisibility) :
    (d1 (headerVisibilityList event vis)).Perm (d2 (headerVisibilityList event vis))
    ∧ (d1 (headerVisibilityList event vis) = d2 (headerVisibilityList event vis) →
        encapsulateEventD d1 event vis = encapsulateEventD d2 event vis) := by
  constructor
  · rw [List.perm_ext_iff_of_nodup (h1 _).1 (h2 _).1]
    intro a
    rw [(h1 _).2, (h2 _).2]
  · intro heq
    simp only [encapsulateEventD, heq]

/-- C7 amended witness. -/
theorem claim_C7_amended_witness :
    (dedupFirst (headerVisibilityList
        "A - 1 - |c00ff0000Pv|r \x7bspell:2\x7d  ".toList .ALL)).Perm
      (dedupFirst (headerVisibilityList
        "A - 1 - |c00ff0000Pv|r \x7bspell:2\x7d  ".toList .ALL))
    ∧ encapsulateEventD dedupFirst
        "A - 1 - |c00ff0000Pv|r \x7bspell:2\x7d  ".toList .ALL
      = encapsulateEventD dedupFirst
        "A - 1 - |c00ff0000Pv|r \x7bspell:2\x7d  ".toList .ALL :=
  ⟨(claim_C7_amended dedupFirst dedupFirst validDedup_dedupFirst validDedup_dedupFirst _ _).1,
   (claim_C7_amended dedupFirst dedupFirst validDedup_dedupFirst validDedup_dedupFirst _ _).2 rfl⟩

